import Mathlib

namespace BallSort

/-- A color of a token. The Rust code uses `type Color = u32`. -/
abbrev Color := Nat

/-- A column of tokens. The Rust code uses `Vec<Color>` with the TOP of the
stack at the END of the vector; this embedding keeps the top of the stack at
the HEAD of the list, so `Vec::last` becomes `List.head?`, `Vec::pop` becomes
`List.tail` and `Vec::push` becomes `List.cons`. -/
abbrev Column := List Color

/-- Mirrors the Rust `enum Score { Win, Score(usize) }`. -/
inductive Score where
  | Win : Score
  | Score : Nat → Score
deriving DecidableEq, Repr

/-- Mirrors `impl Ord for Score`: the first match arm sends `(Win, _)` to
`Greater`, the second `(_, Win)` to `Less`, and two numeric scores compare as
the underlying naturals. Note the first arm also catches `(Win, Win)`. -/
def Score.cmp : BallSort.Score → BallSort.Score → Ordering
  | Score.Win, _ => Ordering.gt
  | _, Score.Win => Ordering.lt
  | Score.Score s1, Score.Score s2 => compare s1 s2

/-- Mirrors the Rust `struct Move(usize, usize)`: source and destination
column indices. -/
structure Move where
  src : Nat
  dst : Nat
deriving DecidableEq, Repr

/-- Mirrors the Rust `struct Puzzle`. `colors_count` embeds the
`HashMap<Color, usize>` as a total function; a color absent from the map is
sent to 0 (the Rust map is only ever read through `colors_count[&c]` for a
color `c` present in the state, and every such color has a positive recorded
count for a puzzle built by `new`). -/
structure Puzzle where
  column_size : Nat
  colors_count : Color → Nat
  state : List Column

/-- Counting pass of `Puzzle::new` over one (already truncated) column:
each token bumps the recorded count of its color by one. -/
def addColumnCounts (cc : Color → Nat) (col : List Color) : Color → Nat :=
  col.foldl (fun f c => fun x => if x = c then f x + 1 else f x) cc

/-- Mirrors `Puzzle::new`: every input column is truncated to its first
`column_size` tokens (`&col[..min(column_size, col.len())]`), the per-color
counts are accumulated over the truncated data, and the truncated column is
stored. The stored column is reversed because this embedding keeps the stack
top at the head of the list while Rust pushes bottom-first. -/
def Puzzle.new (column_size : Nat) (init : List (List Color)) : Puzzle :=
  { column_size := column_size
    colors_count :=
      init.foldl (fun cc col => addColumnCounts cc (col.take column_size)) (fun _ => 0)
    state := init.map (fun col => (col.take column_size).reverse) }

/-- Mirrors `Puzzle::column_moves`: with `c` the top color of column `col`,
every other column is a destination unless its top token exists and differs
from `c` or it is full; destinations are visited in ascending index order.
The Rust loop pairs each index with its column via `enumerate`; the embedding
reads the column of index `i` with `getD` instead. An empty source column
yields no moves. -/
def Puzzle.column_moves (p : Puzzle) (col : Nat) : List Move :=
  match (p.state.getD col []).head? with
  | none => []
  | some c =>
    (List.range p.state.length).filterMap fun i =>
      let dst := p.state.getD i []
      if i = col then none
      else if dst.head?.any fun c2 => c2 != c then none
      else if dst.length < p.column_size then some (Move.mk col i) else none

/-- Mirrors `Puzzle::moves`: the `column_moves` of every column index in
ascending order, appended in order. -/
def Puzzle.moves (p : Puzzle) : List Move :=
  (List.range p.state.length).foldl (fun acc i => acc ++ p.column_moves i) []

/-- Mirrors the loop body of `Puzzle::rank` (the closure over one column of
the enumerate loop, named here so that theorems can speak about it). The
fold state is the pair (score, done); the column of index i adds its move
count, then an empty column adds 10 * n, a monochrome column holding every
recorded token of its color adds 1000 * n, a monochrome but incomplete
column adds 100 * n and clears done, and a mixed column just clears done,
with n the number of columns. `Puzzle.rank` itself folds `rankStep` over
all column indices from (0, true) and returns Win exactly when the done
flag survived. -/
def Puzzle.rankStep (p : Puzzle) (acc : Nat × Bool) (i : Nat) : Nat × Bool :=
  let col := p.state.getD i []
  let score := acc.1 + (p.column_moves i).length
  match col.head? with
  | some c =>
    if col.all (fun c2 => c2 == c) then
      if col.length = p.colors_count c then (score + 1000 * p.state.length, acc.2)
      else (score + 100 * p.state.length, false)
    else (score, false)
  | none => (score + 10 * p.state.length, acc.2)

def Puzzle.rank (p : Puzzle) : Score :=
  let r := (List.range p.state.length).foldl p.rankStep (0, true)
  if r.2 then Score.Win else Score.Score r.1

/-- Outcome of `Puzzle::do_move` in the embedding: `panicked` stands for a
Rust panic (moving from an empty column, or an index out of range),
`hung` stands for the transfer loop not terminating, and `ok` carries the
final column state. -/
inductive MoveOutcome where
  | panicked : MoveOutcome
  | hung : MoveOutcome
  | ok : List Column → MoveOutcome
deriving DecidableEq, Repr

/-- The transfer loop of `Puzzle::do_move`, with explicit fuel:
while the destination column has fewer than `cs` tokens and the top of the
source column exists and equals `color` (`pop_if`), pop it from the source
and push it onto the destination. Writing the two updates as two sequential
`List.set` calls reproduces the Rust aliasing when `f = t`. Returns `none`
when the fuel runs out before the loop exits. -/
def doMoveGo (cs : Nat) (color : Color) (f t : Nat) : Nat → List Column → Option (List Column)
  | 0, _ => none
  | fuel + 1, st =>
    if (st.getD t []).length < cs then
      match st.getD f [] with
      | c :: rest =>
        if c = color then
          let st1 := st.set f rest
          doMoveGo cs color f t fuel (st1.set t (c :: st1.getD t []))
        else some st
      | [] => some st
    else some st

/-- Mirrors `Puzzle::do_move`. The Rust code first reads the top of the
source column (`expect` panics when the column is empty, and indexing panics
when `from` is out of range), then runs the transfer loop, whose condition
indexes the destination column (panicking when `to` is out of range). The
fuel `length + 1` is enough for every terminating run: when `f ≠ t` each
iteration pops one token off the source column. -/
def Puzzle.do_move (p : Puzzle) : Move → MoveOutcome
  | Move.mk f t =>
    if f < p.state.length then
      match (p.state.getD f []).head? with
      | none => MoveOutcome.panicked
      | some color =>
        if t < p.state.length then
          match doMoveGo p.column_size color f t ((p.state.getD f []).length + 1) p.state with
          | some st => MoveOutcome.ok st
          | none => MoveOutcome.hung
        else MoveOutcome.panicked
    else MoveOutcome.panicked

/-- Total wrapper used to build the search tree: on the outcomes that stand
for a Rust panic or hang the puzzle is returned unchanged (the search only
ever applies self-generated legal moves, for which `do_move` is `ok`). -/
def Puzzle.apply_move (p : Puzzle) (m : Move) : Puzzle :=
  match p.do_move m with
  | MoveOutcome.ok st => { p with state := st }
  | _ => p

/-- Number of tokens of color `c` on the board: the spec conservation
measure. -/
def countColor (st : List Column) (c : Color) : Nat :=
  (st.map (fun col => col.count c)).sum

/-- Sequential application of a list of moves through `apply_move`. -/
def applyMoves (p : Puzzle) (ms : List Move) : Puzzle :=
  ms.foldl Puzzle.apply_move p

/-- Mirrors the Rust `struct MoveTree { game: Puzzle, children: HashMap<Move, MoveTree> }`.
The children mapping is embedded as an association list kept in the order the
moves were generated; the Rust `HashMap` iteration order is unspecified, and
the theorems below about `find_best` only use order-independent facts. -/
inductive MoveTree where
  | mk : Puzzle → List (Move × MoveTree) → MoveTree

/-- The board snapshot owned by a tree node. -/
def MoveTree.game : MoveTree → Puzzle
  | MoveTree.mk g _ => g

/-- The children mapping of a tree node. -/
def MoveTree.children : MoveTree → List (Move × MoveTree)
  | MoveTree.mk _ c => c

/-- Mirrors `Puzzle::moves_map`: at depth 0 there are no children; otherwise
every generated move is applied to a clone of the board and paired with the
subtree built at depth one less. -/
def Puzzle.moves_map (p : Puzzle) : Nat → List (Move × MoveTree)
  | 0 => []
  | d + 1 =>
    p.moves.map fun m =>
      let game := p.apply_move m
      (m, MoveTree.mk game (game.moves_map d))

/-- Mirrors `Puzzle::moves_tree`: the root owns a snapshot of the board and
the children built by `moves_map`. -/
def Puzzle.moves_tree (p : Puzzle) (depth : Nat) : MoveTree :=
  MoveTree.mk p (p.moves_map depth)

/-- The accumulator loop of `MoveTree::find_best` over the list of children
paired with their recursively computed results: a child strictly better than
the accumulator (the code compares with the Ord instance of `Score`, so with
`Score.cmp`) replaces it, with the move prepended to the child path, and the
loop breaks as soon as the accumulated best score is Win. -/
def find_bestGo (acc : Puzzle × Score × List Move) :
    List (Move × (Puzzle × Score × List Move)) → Puzzle × Score × List Move
  | [] => acc
  | (m, r) :: rest =>
    let acc1 := if Score.cmp r.2.1 acc.2.1 = Ordering.gt then (r.1, r.2.1, m :: r.2.2) else acc
    if acc1.2.1 = Score.Win then acc1 else find_bestGo acc1 rest

/-- Mirrors `MoveTree::find_best`: a node whose own rank is Win, or with no
children, returns its own board, its own rank and an empty move path;
otherwise the children results are folded from the initial accumulator
(own board, Score 0, empty path). The recursive results of the children are
computed up front here, which a pure reading of the Rust loop makes
equivalent (the loop that breaks early simply ignores the later results). -/
def MoveTree.find_best : MoveTree → Puzzle × Score × List Move
  | MoveTree.mk game children =>
    let score := game.rank
    if score = Score.Win ∨ children.isEmpty = true then (game, score, [])
    else find_bestGo (game, Score.Score 0, [])
      (children.attach.map (fun x => (x.1.1, MoveTree.find_best x.1.2)))
decreasing_by
  simp_wf
  obtain ⟨⟨mv, tr⟩, hmem⟩ := x
  have hm := List.sizeOf_lt_of_mem hmem
  simp at hm ⊢
  omega

/-- The body of the `while count < iterations` loop of `Puzzle::solve`,
recursing on the number of remaining iterations: each cycle builds the tree
at the given depth, extends the accumulated moves with the best path found,
stops if the best score is Win, and otherwise continues from the best board. -/
def Puzzle.solveGo (depth : Nat) : Nat → Puzzle → List Move
  | 0, _ => []
  | n + 1, game =>
    let r := (game.moves_tree depth).find_best
    if r.2.1 = Score.Win then r.2.2 else r.2.2 ++ Puzzle.solveGo depth n r.1

/-- Mirrors `Puzzle::solve`: runs at most `iterations` cycles of
build-tree / find-best / commit. -/
def Puzzle.solve (p : Puzzle) (depth iterations : Nat) : List Move :=
  Puzzle.solveGo depth iterations p

/-- The tree `t` has height at most `n`: every chain of children is shorter
than `n`. Used to state that `moves_tree depth` is bounded by the depth cap. -/
inductive DepthLE : MoveTree → Nat → Prop where
  | mk : ∀ (g : Puzzle) (ch : List (Move × MoveTree)) (n : Nat),
      (∀ c ∈ ch, DepthLE c.2 n) → DepthLE (MoveTree.mk g ch) (n + 1)

/-- The intended order on scores, following the claim wording: Win is the
maximum and numeric values compare as naturals. Used to state that the value
`find_best` computes is maximal among the children values. -/
def scoreLe : BallSort.Score → BallSort.Score → Bool
  | _, Score.Win => true
  | Score.Win, Score.Score _ => false
  | Score.Score m, Score.Score n => m ≤ n

/-- A column that does not block the Win verdict of `rank`: empty, or
monochrome with its length equal to the recorded count of its color. -/
def colDone (p : Puzzle) (col : Column) : Bool :=
  match col.head? with
  | none => true
  | some c => col.all (fun c2 => c2 == c) && col.length == p.colors_count c

/-- The legality test of the claim wording for a destination `i` of a move
out of column `col` whose top color is `c`: a different column whose top
token, if any, matches `c`, with strictly fewer than `column_size` tokens. -/
def legalDst (p : Puzzle) (col : Nat) (c : Color) (i : Nat) : Bool :=
  decide (i ≠ col) && ((p.state.getD i []).head?.all fun c2 => c2 == c)
    && decide ((p.state.getD i []).length < p.column_size)

/-- Example board of the `do_move` scenario: with capacity 4, column 0 holds
the run 5, 5, 5 on top of a single 1, and column 1 holds 2, 2 with two free
slots (the Rust caller writes the bottom token first, so the input column
reads 1, 5, 5, 5). -/
def scenarioPuzzle : Puzzle := Puzzle.new 4 [[1, 5, 5, 5], [2, 2]]

/-- Example board with one mixed, immobile column pair: both columns are
full, mixed and mutually blocked, so it has no moves and rank Score 0. -/
def stuckPuzzle : Puzzle := Puzzle.new 2 [[2, 1], [1, 2]]

/-- Example board with a non-empty, non-full column: moving column 0 onto
itself makes the Rust transfer loop run forever. -/
def hangPuzzle : Puzzle := Puzzle.new 4 [[1, 2, 3], [4]]

/-- Example solved board: each color fully collected in its own column, so
its rank is Win. -/
def winPuzzle : Puzzle := Puzzle.new 2 [[1, 1], [2, 2]]

/-! Helper lemmas about lists, counting and the transfer loop. -/

/-- Setting an index to the value already there is the identity; out of
range, `set` is the identity anyway. -/
theorem set_getD_self {α : Type} (d : α) : ∀ (l : List α) (i : Nat), l.set i (l.getD i d) = l
  | [], _ => by simp
  | _ :: _, 0 => by simp [List.getD]
  | a :: l, i + 1 => by
    simpa [List.getD] using set_getD_self d l i

/-- Reading back a set index in bounds. -/
theorem getD_set_self {α : Type} (d : α) (l : List α) (i : Nat) (v : α) (h : i < l.length) :
    (l.set i v).getD i d = v := by
  simp [List.getD_eq_getElem?_getD, List.getElem?_set_self h]

/-- Reading another index after a set. -/
theorem getD_set_ne {α : Type} (d : α) (l : List α) {i j : Nat} (v : α) (h : i ≠ j) :
    (l.set i v).getD j d = l.getD j d := by
  simp [List.getD_eq_getElem?_getD, List.getElem?_set_ne h]

theorem countColor_cons (a : Column) (st : List Column) (x : Color) :
    countColor (a :: st) x = a.count x + countColor st x := by
  simp [countColor]

/-- Replacing column `i` changes the total count of a color by the
difference of the two column counts, stated additively. -/
theorem countColor_set (x : Color) :
    ∀ (st : List Column) (i : Nat) (v : Column), i < st.length →
      countColor (st.set i v) x + (st.getD i []).count x = countColor st x + v.count x
  | [], i, v, h => by simp at h
  | a :: st, 0, v, _ => by
    simp [countColor_cons, List.getD]
    omega
  | a :: st, i + 1, v, h => by
    have ih := countColor_set x st i v (by simpa using h)
    simp [countColor_cons, List.getD] at ih ⊢
    omega

/-- One iteration of the transfer loop conserves the number of tokens of
every color, provided both indices are in range. -/
theorem countColor_step (st : List Column) (c : Color) (rest : List Color) (f t : Nat)
    (hf : f < st.length) (ht : t < st.length) (hsrc : st.getD f [] = c :: rest) (x : Color) :
    countColor ((st.set f rest).set t (c :: (st.set f rest).getD t [])) x
      = countColor st x := by
  have h1 := countColor_set x st f rest hf
  have h2 := countColor_set x (st.set f rest) t (c :: (st.set f rest).getD t [])
    (by simpa using ht)
  rw [hsrc] at h1
  simp only [List.count_cons, List.getD_eq_getElem?_getD] at h1 h2 ⊢
  omega

/-- The transfer loop preserves the length of the state (number of columns). -/
theorem doMoveGo_length (cs : Nat) (color : Color) (f t : Nat) :
    ∀ (fuel : Nat) (st st' : List Column), doMoveGo cs color f t fuel st = some st' →
      st'.length = st.length
  | 0, _, _, h => by simp [doMoveGo] at h
  | fuel + 1, st, st', h => by
    rw [doMoveGo] at h
    split at h
    · split at h
      · split at h
        · have := doMoveGo_length cs color f t fuel _ _ h
          simpa using this
        · cases h; rfl
      · cases h; rfl
    · cases h; rfl


/-- The transfer loop conserves the number of tokens of every color
when both column indices are in range. -/
theorem doMoveGo_count (cs : Nat) (color : Color) (f t : Nat) :
    ∀ (fuel : Nat) (st st' : List Column), f < st.length → t < st.length →
      doMoveGo cs color f t fuel st = some st' →
      ∀ x, countColor st' x = countColor st x
  | 0, _, _, _, _, h => by simp [doMoveGo] at h
  | fuel + 1, st, st', hf, ht, h => by
    rw [doMoveGo] at h
    split at h
    · split at h
      next c rest heq =>
        split at h
        · intro x
          have hstep := countColor_step st c rest f t hf ht heq x
          have ih := doMoveGo_count cs color f t fuel _ st'
            (by simpa using hf) (by simpa using ht) h x
          rw [ih, hstep]
        · cases h; intro x; rfl
      next heq => cases h; intro x; rfl
    · cases h; intro x; rfl

/-- A getD result that is a cons forces the index in range. -/
theorem getD_cons_lt (st : List Column) (f : Nat) (c : Color) (rest : List Color)
    (h : st.getD f [] = c :: rest) : f < st.length := by
  by_contra hf
  rw [List.getD_eq_getElem?_getD, List.getElem?_eq_none (by omega)] at h
  simp at h

/-- An in-range getD is an element of the list. -/
theorem getD_mem {α : Type} (l : List α) (i : Nat) (d : α) (h : i < l.length) :
    l.getD i d ∈ l := by
  rw [List.getD_eq_getElem?_getD, List.getElem?_eq_getElem h]
  exact List.getElem_mem h

/-- One iteration of the transfer loop keeps every column within the
capacity bound: it only pushes onto a column it just checked to be strictly
below capacity. -/
theorem step_cols_le (cs : Nat) (st : List Column) (c : Color) (rest : List Color) (f t : Nat)
    (hb : ∀ col ∈ st, col.length ≤ cs)
    (heq : st.getD f [] = c :: rest) (hlt : (st.getD t []).length < cs) :
    ∀ col ∈ (st.set f rest).set t (c :: (st.set f rest).getD t []), col.length ≤ cs := by
  have hf : f < st.length := getD_cons_lt st f c rest heq
  intro col hcol
  rcases List.mem_or_eq_of_mem_set hcol with hcol1 | hceq
  · rcases List.mem_or_eq_of_mem_set hcol1 with hcol2 | hceq2
    · exact hb _ hcol2
    · have hlen : (c :: rest).length ≤ cs := by
        rw [← heq]; exact hb _ (getD_mem st f [] hf)
      rw [hceq2]
      simp at hlen
      omega
  · rw [hceq]
    by_cases hft : f = t
    · subst hft
      rw [getD_set_self [] st f rest hf]
      rw [heq] at hlt
      simp at hlt ⊢
      omega
    · rw [getD_set_ne [] st rest hft]
      simpa using Nat.succ_le_of_lt hlt

/-- The transfer loop keeps every column within the capacity bound. -/
theorem doMoveGo_cols_le (cs : Nat) (color : Color) (f t : Nat) :
    ∀ (fuel : Nat) (st st' : List Column), (∀ col ∈ st, col.length ≤ cs) →
      doMoveGo cs color f t fuel st = some st' →
      ∀ col ∈ st', col.length ≤ cs
  | 0, _, _, _, h => by simp [doMoveGo] at h
  | fuel + 1, st, st', hb, h => by
    rw [doMoveGo] at h
    split at h
    next hlt =>
      split at h
      next c rest heq =>
        split at h
        · exact doMoveGo_cols_le cs color f t fuel _ st'
            (step_cols_le cs st c rest f t hb heq hlt) h
        · cases h; exact hb
      next heq => cases h; exact hb
    next => cases h; exact hb

/-- Unfolding: one more loop iteration when the destination has room and
the source top has the moving color. -/
theorem doMoveGo_step (cs : Nat) (color : Color) (f t : Nat) (fuel : Nat) (st : List Column)
    (c : Color) (rest : List Color)
    (hcap : (st.getD t []).length < cs) (hsrc : st.getD f [] = c :: rest) (hc : c = color) :
    doMoveGo cs color f t (fuel + 1) st
      = doMoveGo cs color f t fuel ((st.set f rest).set t (c :: (st.set f rest).getD t [])) := by
  rw [doMoveGo, if_pos hcap]
  split
  next c2 rest2 heq =>
    rw [hsrc] at heq
    cases heq
    rw [if_pos hc]
  next heq => exact absurd (hsrc.symm.trans heq) (by simp)

/-- Unfolding: the loop stops when the source top has a different color. -/
theorem doMoveGo_stop_color (cs : Nat) (color : Color) (f t : Nat) (fuel : Nat) (st : List Column)
    (c : Color) (rest : List Color)
    (hcap : (st.getD t []).length < cs) (hsrc : st.getD f [] = c :: rest) (hc : c ≠ color) :
    doMoveGo cs color f t (fuel + 1) st = some st := by
  rw [doMoveGo, if_pos hcap]
  split
  next c2 rest2 heq =>
    rw [hsrc] at heq
    cases heq
    rw [if_neg hc]
  next heq => exact absurd (hsrc.symm.trans heq) (by simp)

/-- Unfolding: the loop stops when the source column is empty. -/
theorem doMoveGo_stop_nil (cs : Nat) (color : Color) (f t : Nat) (fuel : Nat) (st : List Column)
    (hcap : (st.getD t []).length < cs) (hsrc : st.getD f [] = []) :
    doMoveGo cs color f t (fuel + 1) st = some st := by
  rw [doMoveGo, if_pos hcap]
  split
  next c2 rest2 heq => exact absurd (hsrc.symm.trans heq) (by simp)
  next heq => rfl

/-- Unfolding: the loop stops when the destination is full. -/
theorem doMoveGo_stop_full (cs : Nat) (color : Color) (f t : Nat) (fuel : Nat) (st : List Column)
    (hcap : ¬ (st.getD t []).length < cs) :
    doMoveGo cs color f t (fuel + 1) st = some st := by
  rw [doMoveGo, if_neg hcap]

/-- Closed form of the transfer loop when source and destination differ:
with `src` the source column, `dst` the destination column and
`k = min (length of the top run of color) (free capacity of dst)`, the loop
drops `k` tokens from the source and pushes `k` copies of the color onto the
destination. -/
theorem doMoveGo_spec (cs : Nat) (color : Color) (f t : Nat) (hft : f ≠ t) :
    ∀ (fuel : Nat) (st : List Column) (src dst : List Color),
      t < st.length → st.getD f [] = src → st.getD t [] = dst → src.length < fuel →
      doMoveGo cs color f t fuel st =
        some ((st.set f (src.drop (min ((src.takeWhile (fun x => x == color)).length)
                  (cs - dst.length)))).set t
              (List.replicate (min ((src.takeWhile (fun x => x == color)).length)
                  (cs - dst.length)) color ++ dst))
  | 0, _, _, _, _, _, _, hlen => by omega
  | fuel + 1, st, src, dst, ht, hsrc, hdst, hlen => by
    by_cases hcap : (st.getD t []).length < cs
    · match src, hsrc, hlen with
      | [], hsrc, hlen =>
        rw [doMoveGo_stop_nil cs color f t fuel st hcap hsrc]
        simp only [List.takeWhile_nil, List.length_nil, Nat.zero_min, List.drop_zero,
          List.replicate_zero, List.nil_append]
        rw [← hsrc, set_getD_self, ← hdst, set_getD_self]
      | c :: rest, hsrc, hlen =>
        by_cases hc : c = color
        · subst hc
          rw [doMoveGo_step cs c f t fuel st c rest hcap hsrc rfl]
          have hf : f < st.length := getD_cons_lt st f c rest hsrc
          have hd1 : (st.set f rest).getD t [] = dst := by
            rw [getD_set_ne [] st rest hft, hdst]
          rw [hd1]
          have hgf : ((st.set f rest).set t (c :: dst)).getD f [] = rest := by
            rw [getD_set_ne [] (st.set f rest) (c :: dst) (Ne.symm hft),
              getD_set_self [] st f rest hf]
          have hgt : ((st.set f rest).set t (c :: dst)).getD t [] = c :: dst := by
            exact getD_set_self [] (st.set f rest) t (c :: dst) (by simpa using ht)
          have ih := doMoveGo_spec cs c f t hft fuel
            ((st.set f rest).set t (c :: dst)) rest (c :: dst)
            (by simpa using ht) hgf hgt (by simp at hlen ⊢; omega)
          rw [ih]
          have hdltcs : dst.length < cs := by rw [hdst] at hcap; exact hcap
          have hk : min (((c :: rest).takeWhile (fun x => x == c)).length)
              (cs - dst.length)
              = min ((rest.takeWhile (fun x => x == c)).length)
                (cs - (c :: dst).length) + 1 := by
            simp only [List.takeWhile_cons, beq_self_eq_true, if_true, List.length_cons]
            omega
          congr 1
          rw [hk]
          generalize min ((rest.takeWhile (fun x => x == c)).length)
            (cs - (c :: dst).length) = k2
          rw [List.set_comm _ _ _ (Ne.symm hft), List.set_set, List.set_set,
            List.drop_succ_cons, List.replicate_succ']
          simp
        · rw [doMoveGo_stop_color cs color f t fuel st c rest hcap hsrc hc]
          have htw : ((c :: rest).takeWhile (fun x => x == color)).length = 0 := by
            simp [List.takeWhile_cons, hc]
          rw [htw]
          simp only [Nat.zero_min, List.drop_zero, List.replicate_zero, List.nil_append]
          rw [← hsrc, set_getD_self, ← hdst, set_getD_self]
    · rw [doMoveGo_stop_full cs color f t fuel st hcap]
      have hk : min ((src.takeWhile (fun x => x == color)).length) (cs - dst.length) = 0 := by
        rw [hdst] at hcap
        omega
      rw [hk]
      simp only [List.drop_zero, List.replicate_zero, List.nil_append]
      rw [← hsrc, set_getD_self, ← hdst, set_getD_self]

/-- When source and destination are the same column, the column is not
empty and strictly below capacity, one loop iteration restores the state
exactly, so no amount of fuel makes the loop finish. -/
theorem doMoveGo_self_none (cs : Nat) (c : Color) (i : Nat) :
    ∀ (fuel : Nat) (st : List Column) (rest : List Color),
      st.getD i [] = c :: rest → (c :: rest).length < cs →
      doMoveGo cs c i i fuel st = none
  | 0, _, _, _, _ => by rw [doMoveGo]
  | fuel + 1, st, rest, hsrc, hlen => by
    have hcap : (st.getD i []).length < cs := by rw [hsrc]; exact hlen
    have hi : i < st.length := getD_cons_lt st i c rest hsrc
    rw [doMoveGo_step cs c i i fuel st c rest hcap hsrc rfl]
    have hset : (st.set i rest).set i (c :: (st.set i rest).getD i []) = st := by
      rw [getD_set_self [] st i rest hi, List.set_set, ← hsrc, set_getD_self]
    rw [hset]
    exact doMoveGo_self_none cs c i fuel st rest hsrc hlen

/-- Closed form of `do_move` for distinct, in-range source and destination:
the source keeps everything below the transferred prefix, and the
destination gains `k` copies of the top color, where `k` is the minimum of
the top-run length and the free capacity. -/
theorem do_move_eq_ok (p : Puzzle) (f t : Nat) (c : Color) (rest : List Color)
    (hft : f ≠ t) (ht : t < p.state.length) (hsrc : p.state.getD f [] = c :: rest) :
    p.do_move (Move.mk f t) = MoveOutcome.ok
      ((p.state.set f ((c :: rest).drop
          (min (((c :: rest).takeWhile (fun x => x == c)).length)
            (p.column_size - (p.state.getD t []).length)))).set t
        (List.replicate (min (((c :: rest).takeWhile (fun x => x == c)).length)
            (p.column_size - (p.state.getD t []).length)) c ++ p.state.getD t [])) := by
  have hf : f < p.state.length := getD_cons_lt p.state f c rest hsrc
  have hspec := doMoveGo_spec p.column_size c f t hft ((p.state.getD f []).length + 1)
    p.state (c :: rest) (p.state.getD t []) ht hsrc rfl (by rw [hsrc]; omega)
  rw [hsrc] at hspec
  rw [Puzzle.do_move, if_pos hf, hsrc]
  simp only [List.head?_cons]
  rw [if_pos ht, hspec]

/-- Moving from an empty (or out of range) source column panics. -/
theorem do_move_empty_panic (p : Puzzle) (f t : Nat)
    (h : (p.state.getD f []).head? = none) :
    p.do_move (Move.mk f t) = MoveOutcome.panicked := by
  rw [Puzzle.do_move]
  split
  · rw [h]
  · rfl

/-- Moving a non-empty column strictly below capacity onto itself hangs. -/
theorem do_move_self_hung (p : Puzzle) (i : Nat)
    (hne : p.state.getD i [] ≠ []) (hlen : (p.state.getD i []).length < p.column_size) :
    p.do_move (Move.mk i i) = MoveOutcome.hung := by
  rcases hl : p.state.getD i [] with _ | ⟨c, rest⟩
  · exact absurd hl hne
  · have hi : i < p.state.length := getD_cons_lt p.state i c rest hl
    rw [hl] at hlen
    have hnone := doMoveGo_self_none p.column_size c i ((c :: rest).length + 1) p.state rest hl hlen
    rw [Puzzle.do_move, if_pos hi, hl]
    simp only [List.head?_cons]
    rw [if_pos hi, hnone]

/-- A move between two distinct columns never hangs. -/
theorem do_move_ne_hung (p : Puzzle) (f t : Nat) (hft : f ≠ t) :
    p.do_move (Move.mk f t) ≠ MoveOutcome.hung := by
  by_cases hf : f < p.state.length
  · rcases hl : p.state.getD f [] with _ | ⟨c, rest⟩
    · rw [do_move_empty_panic p f t (by rw [hl]; rfl)]
      simp
    · by_cases ht : t < p.state.length
      · rw [do_move_eq_ok p f t c rest hft ht hl]
        simp
      · rw [Puzzle.do_move, if_pos hf, hl]
        simp only [List.head?_cons]
        rw [if_neg ht]
        simp
  · rw [Puzzle.do_move, if_neg hf]
    simp

/-- Whatever the move, `apply_move` conserves the number of tokens of every
color: the successful branch conserves it through the loop, and the branches
standing for a panic or hang leave the board unchanged. -/
theorem apply_move_count (p : Puzzle) (m : Move) (x : Color) :
    countColor (p.apply_move m).state x = countColor p.state x := by
  rcases m with ⟨f, t⟩
  rw [Puzzle.apply_move]
  rcases hdo : p.do_move (Move.mk f t) with _ | _ | st'
  · rfl
  · rfl
  · simp only
    rw [Puzzle.do_move] at hdo
    split at hdo
    next hf =>
      split at hdo
      next heq => cases hdo
      next color heq =>
        split at hdo
        next ht =>
          split at hdo
          next st2 heq2 =>
            cases hdo
            exact doMoveGo_count p.column_size color f t _ p.state st' hf ht heq2 x
          next heq2 => cases hdo
        next => cases hdo
    next => cases hdo

/-- `apply_move` does not change the recorded color counts, the capacity or
the number of columns. -/
theorem apply_move_frame (p : Puzzle) (m : Move) :
    (p.apply_move m).colors_count = p.colors_count
    ∧ (p.apply_move m).column_size = p.column_size
    ∧ (p.apply_move m).state.length = p.state.length := by
  rcases m with ⟨f, t⟩
  rw [Puzzle.apply_move]
  rcases hdo : p.do_move (Move.mk f t) with _ | _ | st'
  · exact ⟨rfl, rfl, rfl⟩
  · exact ⟨rfl, rfl, rfl⟩
  · refine ⟨rfl, rfl, ?_⟩
    simp only
    rw [Puzzle.do_move] at hdo
    split at hdo
    next hf =>
      split at hdo
      next heq => cases hdo
      next color heq =>
        split at hdo
        next ht =>
          split at hdo
          next st2 heq2 =>
            cases hdo
            exact doMoveGo_length p.column_size color f t _ p.state st' heq2
          next heq2 => cases hdo
        next => cases hdo
    next => cases hdo

/-- `apply_move` keeps every column within the capacity bound. -/
theorem apply_move_cols_le (p : Puzzle) (m : Move)
    (hb : ∀ col ∈ p.state, col.length ≤ p.column_size) :
    ∀ col ∈ (p.apply_move m).state, col.length ≤ p.column_size := by
  rcases m with ⟨f, t⟩
  rw [Puzzle.apply_move]
  rcases hdo : p.do_move (Move.mk f t) with _ | _ | st'
  · exact hb
  · exact hb
  · simp only
    rw [Puzzle.do_move] at hdo
    split at hdo
    next hf =>
      split at hdo
      next heq => cases hdo
      next color heq =>
        split at hdo
        next ht =>
          split at hdo
          next st2 heq2 =>
            cases hdo
            exact doMoveGo_cols_le p.column_size color f t _ p.state st' hb heq2
          next heq2 => cases hdo
        next => cases hdo
    next => cases hdo

/-- The counting pass adds the column count of each color pointwise. -/
theorem addColumnCounts_apply (x : Color) :
    ∀ (col : List Color) (cc : Color → Nat),
      addColumnCounts cc col x = cc x + col.count x
  | [], cc => by simp [addColumnCounts]
  | c :: col, cc => by
    have ih := addColumnCounts_apply x col (fun y => if y = c then cc y + 1 else cc y)
    simp only [addColumnCounts, List.foldl_cons] at ih ⊢
    rw [ih, List.count_cons]
    clear ih
    by_cases hx : x = c
    · simp [hx]
      omega
    · have hbf : (c == x) = false := by simpa using fun h => hx h.symm
      simp [hx, hbf]

/-- The color counts recorded by `new` are the sums of the counts of the
truncated input columns. -/
theorem new_colors_count_sum (cs : Nat) (x : Color) :
    ∀ (init : List (List Color)) (cc0 : Color → Nat),
      (init.foldl (fun cc col => addColumnCounts cc (col.take cs)) cc0) x
        = cc0 x + (init.map (fun col => (col.take cs).count x)).sum
  | [], cc0 => by simp
  | col :: init, cc0 => by
    have ih := new_colors_count_sum cs x init (addColumnCounts cc0 (col.take cs))
    simp only [List.foldl_cons, List.map_cons, List.sum_cons] at ih ⊢
    rw [ih, addColumnCounts_apply]
    omega

/-- The recorded color counts of a freshly built puzzle agree with the
counts over its state. -/
theorem new_colors_count (cs : Nat) (init : List (List Color)) (x : Color) :
    (Puzzle.new cs init).colors_count x = countColor (Puzzle.new cs init).state x := by
  rw [Puzzle.new]
  simp only
  rw [new_colors_count_sum cs x init (fun _ => 0), countColor, List.map_map]
  simp [Function.comp_def, List.count_reverse]

/-- Every column of a freshly built puzzle is within the capacity bound:
`new` truncates each input column to `column_size` tokens. -/
theorem new_cols_le (cs : Nat) (init : List (List Color)) :
    ∀ col ∈ (Puzzle.new cs init).state, col.length ≤ cs := by
  intro col hcol
  rw [Puzzle.new] at hcol
  simp only [List.mem_map] at hcol
  obtain ⟨c0, _, hc0⟩ := hcol
  rw [← hc0]
  simp [List.length_take]

/-- Conservation through any sequence of applied moves. -/
theorem applyMoves_count (x : Color) :
    ∀ (ms : List Move) (p : Puzzle),
      countColor (applyMoves p ms).state x = countColor p.state x
  | [], p => rfl
  | m :: ms, p => by
    rw [applyMoves, List.foldl_cons]
    have ih := applyMoves_count x ms (p.apply_move m)
    rw [applyMoves] at ih
    rw [ih, apply_move_count]

/-- The recorded counts, the capacity and the column count survive any
sequence of applied moves. -/
theorem applyMoves_frame :
    ∀ (ms : List Move) (p : Puzzle),
      (applyMoves p ms).colors_count = p.colors_count
      ∧ (applyMoves p ms).column_size = p.column_size
  | [], p => ⟨rfl, rfl⟩
  | m :: ms, p => by
    rw [applyMoves, List.foldl_cons]
    have ih := applyMoves_frame ms (p.apply_move m)
    rw [applyMoves] at ih
    have hf := apply_move_frame p m
    exact ⟨ih.1.trans hf.1, ih.2.trans hf.2.1⟩

/-- The capacity bound survives any sequence of applied moves. -/
theorem applyMoves_cols_le :
    ∀ (ms : List Move) (p : Puzzle), (∀ col ∈ p.state, col.length ≤ p.column_size) →
      ∀ col ∈ (applyMoves p ms).state, col.length ≤ (applyMoves p ms).column_size
  | [], p, hb => hb
  | m :: ms, p, hb => by
    rw [applyMoves, List.foldl_cons]
    have ih := applyMoves_cols_le ms (p.apply_move m)
    rw [applyMoves] at ih
    refine ih ?_
    rw [(apply_move_frame p m).2.1]
    exact apply_move_cols_le p m hb

/-- Claim C2: for every board and every move applied to it, each color
keeps its token count over all columns, and along any sequence of moves
applied to a freshly constructed board the count of every color equals the
count recorded in the per-color mapping at construction time: the multiset
of tokens is conserved by `do_move`. -/
theorem token_conservation :
    (∀ (p : Puzzle) (m : Move) (x : Color),
      countColor (p.apply_move m).state x = countColor p.state x)
    ∧ (∀ (cs : Nat) (init : List (List Color)) (ms : List Move) (x : Color),
      countColor (applyMoves (Puzzle.new cs init) ms).state x
        = (Puzzle.new cs init).colors_count x) := by
  refine ⟨apply_move_count, fun cs init ms x => ?_⟩
  rw [applyMoves_count x ms (Puzzle.new cs init), new_colors_count]

/-- Claim C6: after construction every column holds at most `column_size`
tokens (the input columns are truncated and the counts are built from the
truncated data), and the bound is kept by every `do_move`, hence along any
sequence of moves. -/
theorem columns_bounded :
    (∀ (cs : Nat) (init : List (List Color)),
      ∀ col ∈ (Puzzle.new cs init).state, col.length ≤ cs)
    ∧ (∀ (cs : Nat) (init : List (List Color)) (x : Color),
      (Puzzle.new cs init).colors_count x
        = (init.map (fun col => (col.take cs).count x)).sum)
    ∧ (∀ (p : Puzzle) (m : Move), (∀ col ∈ p.state, col.length ≤ p.column_size) →
      ∀ col ∈ (p.apply_move m).state, col.length ≤ p.column_size)
    ∧ (∀ (cs : Nat) (init : List (List Color)) (ms : List Move),
      ∀ col ∈ (applyMoves (Puzzle.new cs init) ms).state, col.length ≤ cs) := by
  refine ⟨new_cols_le, ?_, apply_move_cols_le, ?_⟩
  · intro cs init x
    rw [Puzzle.new]
    simp only
    rw [new_colors_count_sum cs x init (fun _ => 0)]
    omega
  · intro cs init ms
    have h := applyMoves_cols_le ms (Puzzle.new cs init) (new_cols_le cs init)
    rw [(applyMoves_frame ms (Puzzle.new cs init)).2] at h
    exact h

/-- The option tests used by `column_moves` and by the claim wording agree:
skipping when the top token exists and differs is the same as keeping when
the top token, if any, matches. -/
theorem opt_any_ne_eq_not_all (c : Color) (o : Option Color) :
    (o.any fun c2 => c2 != c) = !(o.all fun c2 => c2 == c) := by
  cases o <;> simp [bne]

/-- A filterMap whose body is an if-option is the map over the filter. -/
theorem filterMap_if {q : Nat → Bool} {g : Nat → Move} :
    ∀ l : List Nat,
      (l.filterMap fun i => if q i then some (g i) else none) = (l.filter q).map g
  | [] => rfl
  | i :: l => by
    simp only [List.filterMap_cons, List.filter_cons]
    by_cases h : q i
    · simp [h, filterMap_if l]
    · simp [h, filterMap_if l]

/-- The body of the `column_moves` filterMap is the if-option of the
legality test of the claim wording. -/
theorem legal_body_eq (p : Puzzle) (col : Nat) (c : Color) :
    (fun i =>
      let dst := p.state.getD i []
      if i = col then none
      else if dst.head?.any fun c2 => c2 != c then none
      else if dst.length < p.column_size then some (Move.mk col i) else none)
    = fun i => if legalDst p col c i then some (Move.mk col i) else none := by
  funext i
  simp only [legalDst, List.getD_eq_getElem?_getD]
  by_cases h1 : i = col
  · simp [h1]
  · by_cases h2 : ((p.state[i]?.getD []).head?.any fun c2 => c2 != c) = true
    · have h2f : ((p.state[i]?.getD []).head?.all fun c2 => c2 == c) = false := by
        rw [opt_any_ne_eq_not_all] at h2
        simpa using h2
      simp [h1, h2, h2f]
    · have h2t : ((p.state[i]?.getD []).head?.all fun c2 => c2 == c) = true := by
        rw [opt_any_ne_eq_not_all, Bool.not_eq_true'] at h2
        simpa using h2
      have h2f : ((p.state[i]?.getD []).head?.any fun c2 => c2 != c) = false := by
        simpa using h2
      by_cases h3 : (p.state[i]?.getD []).length < p.column_size
      · simp [h1, h2f, h2t, h3]
      · simp [h1, h2f, h2t, h3]

/-- `column_moves` on a column whose top color is `c` lists exactly the
legal destinations in ascending index order. -/
theorem column_moves_eq_filter (p : Puzzle) (col : Nat) (c : Color)
    (hc : (p.state.getD col []).head? = some c) :
    p.column_moves col
      = ((List.range p.state.length).filter (legalDst p col c)).map (fun i => Move.mk col i) := by
  unfold Puzzle.column_moves
  split
  next heq => rw [hc] at heq; cases heq
  next c2 heq =>
    rw [hc] at heq
    injection heq with h
    subst h
    rw [legal_body_eq p col c]
    exact filterMap_if (List.range p.state.length)

/-- `column_moves` of an empty column is empty. -/
theorem column_moves_empty (p : Puzzle) (col : Nat)
    (hc : p.state.getD col [] = []) :
    p.column_moves col = [] := by
  unfold Puzzle.column_moves
  rw [hc]
  rfl

/-- The fold of `moves` is the concatenation of the per-column move lists. -/
theorem foldl_append_flatMap (f : Nat → List Move) :
    ∀ (l : List Nat) (acc : List Move),
      l.foldl (fun a i => a ++ f i) acc = acc ++ l.flatMap f
  | [], acc => by simp
  | i :: l, acc => by
    rw [List.foldl_cons, foldl_append_flatMap f l (acc ++ f i)]
    simp

/-- `moves` is the concatenation of `column_moves` over all column indices
in ascending order. -/
theorem moves_eq_flatMap (p : Puzzle) :
    p.moves = (List.range p.state.length).flatMap (fun i => p.column_moves i) := by
  rw [Puzzle.moves, foldl_append_flatMap]
  simp

/-- Claim C7: `column_moves col` is exactly the ascending list of
`Move col i` over the destinations `i` passing the legality test (different
column, matching top token if any, strictly below capacity); it is empty
when the column is empty; and `moves` is the concatenation of `column_moves`
over all column indices in ascending order. -/
theorem column_moves_characterization :
    (∀ (p : Puzzle) (col : Nat), p.state.getD col [] = [] → p.column_moves col = [])
    ∧ (∀ (p : Puzzle) (col : Nat) (c : Color), (p.state.getD col []).head? = some c →
      p.column_moves col
        = ((List.range p.state.length).filter (legalDst p col c)).map (fun i => Move.mk col i))
    ∧ (∀ p : Puzzle,
      p.moves = (List.range p.state.length).flatMap (fun i => p.column_moves i)) :=
  ⟨column_moves_empty, column_moves_eq_filter, moves_eq_flatMap⟩

/-- Everything a membership in `column_moves` tells about the move. -/
theorem mem_column_moves (p : Puzzle) (col : Nat) (m : Move)
    (h : m ∈ p.column_moves col) :
    ∃ c, (p.state.getD col []).head? = some c ∧ m.src = col ∧ col < p.state.length
      ∧ m.dst < p.state.length ∧ m.dst ≠ col
      ∧ ((p.state.getD m.dst []).head?.all fun c2 => c2 == c) = true
      ∧ (p.state.getD m.dst []).length < p.column_size := by
  rcases hc : (p.state.getD col []).head? with _ | c
  · have : p.state.getD col [] = [] := by
      cases hl : p.state.getD col [] with
      | nil => rfl
      | cons a l => rw [hl] at hc; cases hc
    rw [column_moves_empty p col this] at h
    cases h
  · rw [column_moves_eq_filter p col c hc] at h
    simp only [List.mem_map, List.mem_filter, List.mem_range] at h
    obtain ⟨i, ⟨hilt, hlegal⟩, hm⟩ := h
    rw [legalDst] at hlegal
    simp only [Bool.and_eq_true, decide_eq_true_eq] at hlegal
    refine ⟨c, rfl, ?_, ?_, ?_, ?_, ?_, ?_⟩
    · rw [← hm]
    · rcases hl : p.state.getD col [] with _ | ⟨c0, rest⟩
      · rw [hl] at hc; cases hc
      · exact getD_cons_lt p.state col c0 rest hl
    · rw [← hm]; exact hilt
    · rw [← hm]; exact hlegal.1.1
    · rw [← hm]; exact hlegal.1.2
    · rw [← hm]; exact hlegal.2

/-- A generated move comes from the `column_moves` of some column. -/
theorem mem_moves (p : Puzzle) (m : Move) (h : m ∈ p.moves) :
    ∃ col, m ∈ p.column_moves col := by
  rw [moves_eq_flatMap] at h
  simp only [List.mem_flatMap, List.mem_range] at h
  obtain ⟨col, _, hm⟩ := h
  exact ⟨col, hm⟩

/-- A generated move has an in-range, non-empty source column distinct from
its in-range destination, and `do_move` succeeds on it. -/
theorem mem_moves_ok (p : Puzzle) (m : Move) (h : m ∈ p.moves) :
    ∃ st', p.do_move m = MoveOutcome.ok st' := by
  obtain ⟨col, hcm⟩ := mem_moves p m h
  obtain ⟨c, hc, hsrc, _, hdlt, hdne, _, _⟩ := mem_column_moves p col m hcm
  rcases hl : p.state.getD col [] with _ | ⟨c0, rest⟩
  · rw [hl] at hc; cases hc
  · rw [hl] at hc
    injection hc with hc0
    subst hc0
    rcases m with ⟨ms, md⟩
    simp only at hsrc hdne hdlt
    subst hsrc
    refine ⟨_, do_move_eq_ok p ms md c0 rest (fun hh => hdne hh.symm) hdlt ?_⟩
    exact hl

/-- Claim C8: applying a move whose source column is empty panics (the
embedding returns the `panicked` outcome standing for the Rust panic), and
this cannot happen for generated moves: every move in `moves` has a
non-empty source column. -/
theorem empty_source_panics :
    (∀ (p : Puzzle) (f t : Nat), (p.state.getD f []).head? = none →
      p.do_move (Move.mk f t) = MoveOutcome.panicked)
    ∧ (∀ (p : Puzzle) (m : Move), m ∈ p.moves →
      (p.state.getD m.src []).head?.isSome = true) := by
  refine ⟨do_move_empty_panic, fun p m h => ?_⟩
  obtain ⟨col, hcm⟩ := mem_moves p m h
  obtain ⟨c, hc, hsrc, _⟩ := mem_column_moves p col m hcm
  rw [hsrc, hc]
  rfl

/-- Claim C8 witness: on the scenario board the move generator only emits
moves with non-empty sources, and moving out of the empty column 2 of the
board with an added empty column panics. -/
theorem empty_source_panics_witness :
    (Puzzle.new 4 [[1, 5, 5, 5], [2, 2], []]).do_move (Move.mk 2 0)
      = MoveOutcome.panicked ∧
    ((Puzzle.new 4 [[1, 5, 5, 5], [2, 2], []]).state.getD 0 []).head?.isSome = true :=
  ⟨empty_source_panics.1 (Puzzle.new 4 [[1, 5, 5, 5], [2, 2], []]) 2 0 (by decide),
   empty_source_panics.2 (Puzzle.new 4 [[1, 5, 5, 5], [2, 2], []]) (Move.mk 0 2)
     (by decide)⟩

/-- Claim C3: when the source column is non-empty and distinct from the
in-range destination, `do_move` removes from the source exactly
`k = min (top-run length) (free destination capacity)` tokens and pushes
`k` copies of the top color onto the destination. -/
theorem do_move_transfers_run (p : Puzzle) (f t : Nat) (c : Color) (rest : List Color)
    (hft : f ≠ t) (ht : t < p.state.length) (hsrc : p.state.getD f [] = c :: rest) :
    p.do_move (Move.mk f t) = MoveOutcome.ok
      ((p.state.set f ((c :: rest).drop
          (min (((c :: rest).takeWhile (fun x => x == c)).length)
            (p.column_size - (p.state.getD t []).length)))).set t
        (List.replicate (min (((c :: rest).takeWhile (fun x => x == c)).length)
            (p.column_size - (p.state.getD t []).length)) c ++ p.state.getD t [])) :=
  do_move_eq_ok p f t c rest hft ht hsrc

/-- Claim C3 witness, the scenario of the claim: source top run of length 3
(color 5), destination with 2 free slots; exactly 2 tokens move and 1 token
of the run stays behind. -/
theorem do_move_transfers_run_witness :
    scenarioPuzzle.do_move (Move.mk 0 1)
      = MoveOutcome.ok [[5, 1], [5, 5, 2, 2]] := by
  rw [do_move_transfers_run scenarioPuzzle 0 1 5 [5, 5, 1] (by decide) (by decide) (by decide)]
  rfl

/-- Claim C5: how `Score.cmp` actually behaves. Win compares strictly
greater than every numeric value and numeric values compare as naturals,
but the first match arm also sends the pair (Win, Win) to Greater, so
comparing Win with Win does NOT yield equality even though Win equals Win:
the comparison contradicts the derived equality and is not a total order. -/
theorem score_cmp_behavior :
    Score.cmp Score.Win Score.Win = Ordering.gt
    ∧ (∀ n : Nat, Score.cmp Score.Win (Score.Score n) = Ordering.gt)
    ∧ (∀ n : Nat, Score.cmp (Score.Score n) Score.Win = Ordering.lt)
    ∧ (∀ m n : Nat, Score.cmp (Score.Score m) (Score.Score n) = compare m n) :=
  ⟨rfl, fun _ => rfl, fun _ => rfl, fun _ _ => rfl⟩

/-- Claim C10: `do_move` with distinct source and destination never hangs
and transfers at most `column_size` tokens; with source equal to destination
on a non-empty column strictly below capacity, the transfer loop never exits
(no fuel suffices: every iteration pops the top token and pushes it back),
and `do_move` hangs. -/
theorem do_move_termination :
    (∀ (p : Puzzle) (f t : Nat), f ≠ t → p.do_move (Move.mk f t) ≠ MoveOutcome.hung)
    ∧ (∀ (p : Puzzle) (f t : Nat) (st' : List Column), f ≠ t →
      p.do_move (Move.mk f t) = MoveOutcome.ok st' →
      (p.state.getD f []).length ≤ (st'.getD f []).length + p.column_size)
    ∧ (∀ (st : List Column) (cs : Nat) (i : Nat) (c : Color) (rest : List Color),
      st.getD i [] = c :: rest → (c :: rest).length < cs →
      ∀ fuel, doMoveGo cs c i i fuel st = none)
    ∧ (∀ (p : Puzzle) (i : Nat), p.state.getD i [] ≠ [] →
      (p.state.getD i []).length < p.column_size →
      p.do_move (Move.mk i i) = MoveOutcome.hung) := by
  refine ⟨fun p f t hft => do_move_ne_hung p f t hft, ?_,
    fun st cs i c rest h1 h2 fuel => doMoveGo_self_none cs c i fuel st rest h1 h2,
    do_move_self_hung⟩
  intro p f t st' hft hok
  by_cases hf : f < p.state.length
  · rcases hl : p.state.getD f [] with _ | ⟨c, rest⟩
    · rw [do_move_empty_panic p f t (by rw [hl]; rfl)] at hok
      cases hok
    · by_cases ht : t < p.state.length
      · rw [do_move_eq_ok p f t c rest hft ht hl] at hok
        injection hok with hok
        subst hok
        rw [getD_set_ne [] _ _ (Ne.symm hft), getD_set_self [] p.state f _ hf]
        simp only [List.length_drop, List.length_cons]
        have : min (((c :: rest).takeWhile (fun x => x == c)).length)
            (p.column_size - (p.state.getD t []).length) ≤ p.column_size := by
          have := Nat.min_le_right (((c :: rest).takeWhile (fun x => x == c)).length)
            (p.column_size - (p.state.getD t []).length)
          omega
        simp only [List.length_cons] at this ⊢
        omega
      · rw [Puzzle.do_move, if_pos hf, hl] at hok
        simp only [List.head?_cons] at hok
        rw [if_neg ht] at hok
        cases hok
  · rw [Puzzle.do_move, if_neg hf] at hok
    cases hok

/-- Claim C10 witness: on the example board, moving column 0 to column 1
does not hang, while moving the non-empty, non-full column 0 onto itself
hangs. -/
theorem do_move_termination_witness :
    hangPuzzle.do_move (Move.mk 0 1) ≠ MoveOutcome.hung
    ∧ hangPuzzle.do_move (Move.mk 0 0) = MoveOutcome.hung :=
  ⟨do_move_termination.1 hangPuzzle 0 1 (by decide),
   do_move_termination.2.2.2 hangPuzzle 0 (by decide) (by decide)⟩

/-- The done flag after one `rankStep`: it survives exactly when it held
before and the column is empty or monochrome-and-complete. -/
theorem rankStep_snd (p : Puzzle) (a : Nat × Bool) (i : Nat) :
    (p.rankStep a i).2 = (a.2 && colDone p (p.state.getD i [])) := by
  unfold Puzzle.rankStep colDone
  rcases hc : (p.state.getD i []).head? with _ | c
  · rw [List.getD_eq_getElem?_getD] at hc
    simp [hc]
  · simp only [hc]
    split
    next hall =>
      split
      next hlen =>
        have hb : ((p.state.getD i []).length == p.colors_count c) = true := by
          simpa using hlen
        rw [hall, hb]
        simp
      next hlen =>
        have hb : ((p.state.getD i []).length == p.colors_count c) = false := by
          simpa using hlen
        rw [hall, hb]
        simp
    next hall =>
      have hb : ((p.state.getD i []).all fun c2 => c2 == c) = false := by
        simpa using hall
      rw [hb]
      simp

/-- The done flag after folding `rankStep` over a list of column indices. -/
theorem rank_foldl_snd (p : Puzzle) :
    ∀ (l : List Nat) (a : Nat × Bool),
      (l.foldl p.rankStep a).2 = (a.2 && l.all fun i => colDone p (p.state.getD i []))
  | [], a => by simp
  | i :: l, a => by
    rw [List.foldl_cons, rank_foldl_snd p l (p.rankStep a i), rankStep_snd,
      List.all_cons, Bool.and_assoc]

/-- `rank` is Win exactly when every column index passes `colDone`. -/
theorem rank_win_iff_all (p : Puzzle) :
    p.rank = Score.Win
      ↔ ((List.range p.state.length).all fun i => colDone p (p.state.getD i [])) = true := by
  rw [Puzzle.rank]
  simp only [rank_foldl_snd p (List.range p.state.length) (0, true), Bool.true_and]
  split
  next h => exact iff_of_true rfl h
  next h => exact iff_of_false (by simp) h

/-- A column passes `colDone` exactly when it is empty or monochrome with
length equal to the recorded count of its color. -/
theorem colDone_iff (p : Puzzle) (col : Column) :
    colDone p col = true
      ↔ col = [] ∨ ∃ c, col.head? = some c ∧ (∀ x ∈ col, x = c)
          ∧ col.length = p.colors_count c := by
  unfold colDone
  rcases col with _ | ⟨a, l⟩
  · simp
  · simp only [List.head?_cons, Bool.and_eq_true, List.all_eq_true, beq_iff_eq]
    constructor
    · rintro ⟨hall, hlen⟩
      refine Or.inr ⟨a, rfl, hall, by simpa using hlen⟩
    · rintro (h | ⟨c, hc, hall, hlen⟩)
      · cases h
      · injection hc with hc
        subst hc
        exact ⟨hall, by simpa using hlen⟩

/-- The all-indices test and the all-columns test agree. -/
theorem all_range_iff_all_mem (p : Puzzle) :
    ((List.range p.state.length).all fun i => colDone p (p.state.getD i [])) = true
      ↔ ∀ col ∈ p.state, colDone p col = true := by
  simp only [List.all_eq_true, List.mem_range, List.getD_eq_getElem?_getD]
  constructor
  · intro h col hcol
    obtain ⟨i, hi, hci⟩ := List.mem_iff_getElem.mp hcol
    have hh := h i hi
    rw [List.getElem?_eq_getElem hi, Option.getD_some, hci] at hh
    exact hh
  · intro h i hi
    rw [List.getElem?_eq_getElem hi, Option.getD_some]
    exact h _ (List.getElem_mem hi)

/-- Claim C1: `rank` returns Win exactly when every column is empty or
monochrome with its length equal to the recorded total count of its color,
and on every other board it returns a numeric score. -/
theorem rank_win_iff_solved (p : Puzzle) :
    (p.rank = Score.Win
      ↔ ∀ col ∈ p.state, col = [] ∨ ∃ c, col.head? = some c ∧ (∀ x ∈ col, x = c)
          ∧ col.length = p.colors_count c)
    ∧ (p.rank = Score.Win ∨ ∃ n, p.rank = Score.Score n) := by
  constructor
  · rw [rank_win_iff_all, all_range_iff_all_mem]
    constructor
    · intro h col hcol
      exact (colDone_iff p col).mp (h col hcol)
    · intro h col hcol
      exact (colDone_iff p col).mpr (h col hcol)
  · rcases hr : p.rank with _ | n
    · exact Or.inl rfl
    · exact Or.inr ⟨n, rfl⟩

/-- Win is the top of the intended order. -/
theorem scoreLe_win_top (s : BallSort.Score) : scoreLe s Score.Win = true := by
  rcases s with _ | n <;> rfl

/-- The intended order is reflexive. -/
theorem scoreLe_refl (s : BallSort.Score) : scoreLe s s = true := by
  rcases s with _ | n <;> simp [scoreLe]

/-- The intended order is transitive. -/
theorem scoreLe_trans {a b c : BallSort.Score} (h1 : scoreLe a b = true)
    (h2 : scoreLe b c = true) : scoreLe a c = true := by
  rcases a with _ | m <;> rcases b with _ | k <;> rcases c with _ | n <;>
    simp [scoreLe] at * <;> omega

/-- The comparison of the code is transitive on the Greater verdict. -/
theorem cmp_gt_trans {a b c : BallSort.Score} (h1 : Score.cmp a b = Ordering.gt)
    (h2 : Score.cmp b c = Ordering.gt) : Score.cmp a c = Ordering.gt := by
  rcases a with _ | m <;> rcases b with _ | k <;> rcases c with _ | n <;>
    simp [Score.cmp, Nat.compare_eq_gt] at * <;> omega

/-- Against a numeric accumulator, the Greater verdict of the code is the
strict version of the intended order. -/
theorem cmp_gt_scoreLe {s : BallSort.Score} {k : Nat}
    (h : Score.cmp s (Score.Score k) = Ordering.gt) :
    scoreLe (Score.Score k) s = true := by
  rcases s with _ | m <;> simp [Score.cmp, scoreLe, Nat.compare_eq_gt] at * <;> omega

/-- Against a numeric accumulator, no Greater verdict means the intended
order already holds. -/
theorem not_gt_scoreLe {s : BallSort.Score} {k : Nat}
    (h : ¬ Score.cmp s (Score.Score k) = Ordering.gt) :
    scoreLe s (Score.Score k) = true := by
  rcases s with _ | m <;> simp [Score.cmp, scoreLe, Nat.compare_eq_gt] at * <;> omega

/-- A score below zero in the intended order is zero. -/
theorem scoreLe_zero {s : BallSort.Score} (h : scoreLe s (Score.Score 0) = true) :
    s = Score.Score 0 := by
  rcases s with _ | m <;> simp [scoreLe] at *
  omega

/-- Structure of the accumulator loop: either no child ever improved on the
accumulator and the result is the accumulator itself, or the result is the
entry of some child of the list (its board, its score, its move prepended to
its path) and its score is strictly greater than the accumulator score in
the comparison of the code. -/
theorem find_bestGo_cases :
    ∀ (l : List (Move × (Puzzle × Score × List Move))) (acc : Puzzle × Score × List Move),
      acc.2.1 ≠ Score.Win →
      find_bestGo acc l = acc
      ∨ ∃ x ∈ l, find_bestGo acc l = (x.2.1, x.2.2.1, x.1 :: x.2.2.2)
          ∧ Score.cmp (find_bestGo acc l).2.1 acc.2.1 = Ordering.gt
  | [], acc, _ => Or.inl rfl
  | (m, r) :: rest, acc, hacc => by
    rw [find_bestGo]
    by_cases hup : Score.cmp r.2.1 acc.2.1 = Ordering.gt
    · rw [if_pos hup]
      simp only
      by_cases hwin : r.2.1 = Score.Win
      · rw [if_pos hwin]
        exact Or.inr ⟨(m, r), List.mem_cons_self _ _, rfl, hup⟩
      · rw [if_neg hwin]
        rcases find_bestGo_cases rest (r.1, r.2.1, m :: r.2.2) hwin with h | ⟨x, hx, hform, hgt⟩
        · rw [h]
          exact Or.inr ⟨(m, r), List.mem_cons_self _ _, rfl, hup⟩
        · rw [hform] at hgt ⊢
          exact Or.inr ⟨x, List.mem_cons_of_mem _ hx, rfl, cmp_gt_trans hgt hup⟩
    · rw [if_neg hup]
      rw [if_neg hacc]
      rcases find_bestGo_cases rest acc hacc with h | ⟨x, hx, hform, hgt⟩
      · exact Or.inl h
      · exact Or.inr ⟨x, List.mem_cons_of_mem _ hx, hform, hgt⟩

/-- Wrapper of `cmp_gt_scoreLe` for a non-Win accumulator. -/
theorem cmp_gt_scoreLe_ne {s a : BallSort.Score} (ha : a ≠ Score.Win)
    (h : Score.cmp s a = Ordering.gt) : scoreLe a s = true := by
  rcases a with _ | k
  · exact absurd rfl ha
  · exact cmp_gt_scoreLe h

/-- Wrapper of `not_gt_scoreLe` for a non-Win accumulator. -/
theorem not_gt_scoreLe_ne {s a : BallSort.Score} (ha : a ≠ Score.Win)
    (h : ¬ Score.cmp s a = Ordering.gt) : scoreLe s a = true := by
  rcases a with _ | k
  · exact absurd rfl ha
  · exact not_gt_scoreLe h

/-- The loop result dominates the accumulator score and every child score
of the list in the intended order (the break on Win is harmless because Win
is the top of that order). -/
theorem find_bestGo_ub :
    ∀ (l : List (Move × (Puzzle × Score × List Move))) (acc : Puzzle × Score × List Move),
      acc.2.1 ≠ Score.Win →
      scoreLe acc.2.1 (find_bestGo acc l).2.1 = true
      ∧ ∀ x ∈ l, scoreLe x.2.2.1 (find_bestGo acc l).2.1 = true
  | [], acc, _ => ⟨scoreLe_refl _, by simp⟩
  | (m, r) :: rest, acc, hacc => by
    rw [find_bestGo]
    by_cases hup : Score.cmp r.2.1 acc.2.1 = Ordering.gt
    · rw [if_pos hup]
      simp only
      have hacc_le : scoreLe acc.2.1 r.2.1 = true := cmp_gt_scoreLe_ne hacc hup
      by_cases hwin : r.2.1 = Score.Win
      · rw [if_pos hwin]
        refine ⟨by rw [hwin]; exact scoreLe_win_top _, ?_⟩
        intro x hx
        rw [hwin]
        exact scoreLe_win_top _
      · rw [if_neg hwin]
        obtain ⟨h1, h2⟩ := find_bestGo_ub rest (r.1, r.2.1, m :: r.2.2) hwin
        refine ⟨scoreLe_trans hacc_le h1, ?_⟩
        intro x hx
        rcases List.mem_cons.mp hx with hx1 | hx2
        · rw [hx1]
          exact h1
        · exact h2 x hx2
    · rw [if_neg hup]
      rw [if_neg hacc]
      obtain ⟨h1, h2⟩ := find_bestGo_ub rest acc hacc
      refine ⟨h1, ?_⟩
      intro x hx
      rcases List.mem_cons.mp hx with hx1 | hx2
      · rw [hx1]
        exact scoreLe_trans (not_gt_scoreLe_ne hacc hup) h1
      · exact h2 x hx2

/-- A node whose own rank is Win, or with no children, returns its own
board, its own rank and the empty path. -/
theorem find_best_leaf (g : Puzzle) (ch : List (Move × MoveTree))
    (h : g.rank = Score.Win ∨ ch = []) :
    (MoveTree.mk g ch).find_best = (g, g.rank, []) := by
  have hcond : g.rank = Score.Win ∨ ch.isEmpty = true := by
    rcases h with h | h
    · exact Or.inl h
    · rw [h]
      exact Or.inr rfl
  unfold MoveTree.find_best
  rw [if_pos hcond]

/-- An inner node runs the accumulator loop over the recursively computed
results of its children. -/
theorem find_best_node (g : Puzzle) (ch : List (Move × MoveTree))
    (h1 : ¬ g.rank = Score.Win) (h2 : ch ≠ []) :
    (MoveTree.mk g ch).find_best
      = find_bestGo (g, Score.Score 0, []) (ch.map (fun c => (c.1, c.2.find_best))) := by
  have hcond : ¬ (g.rank = Score.Win ∨ ch.isEmpty = true) := by
    rintro (h | h)
    · exact h1 h
    · exact h2 (List.isEmpty_iff.mp h)
  conv_lhs => rw [MoveTree.find_best]
  rw [if_neg hcond]
  congr 1
  exact List.attach_map_val ch (fun c => (c.1, c.2.find_best))

/-- Claim C4 counterexample: a leaf node (no children) whose own rank is a
numeric score returns that score, not Win; and an inner node all of whose
children evaluate to Score 0 returns an empty move path, not the move of a
best child prepended to that child path. -/
theorem find_best_counterexample :
    (MoveTree.mk stuckPuzzle []).children = []
    ∧ (MoveTree.mk stuckPuzzle []).find_best.2.1 = Score.Score 0
    ∧ (MoveTree.mk stuckPuzzle
        [(Move.mk 0 1, MoveTree.mk stuckPuzzle [])]).find_best.2.2 = [] := by
  have hrank : stuckPuzzle.rank = Score.Score 0 := by decide
  refine ⟨rfl, ?_, ?_⟩
  · rw [find_best_leaf _ _ (Or.inr rfl), hrank]
  · rw [find_best_node _ _ (by rw [hrank]; simp) (by simp)]
    rw [List.map_cons, List.map_nil]
    rw [find_best_leaf _ _ (Or.inr rfl), hrank]
    rw [find_bestGo]
    have hcmp : Score.cmp (Score.Score 0) (Score.Score 0) ≠ Ordering.gt := by decide
    rw [if_neg hcmp]
    rw [if_neg (by decide : ¬ ((stuckPuzzle, Score.Score 0,
      ([] : List Move)).2.1 = Score.Win))]
    rfl

/-- Claim C4, amended: a node whose own rank is Win or that has no children
returns its own board, its OWN RANK (Win only when its rank is Win) and an
empty path; any other node returns the maximum of its children values in the
intended order on scores (Win on top, numeric values as naturals), a value
always attained by some child; when that maximum beats Score 0 the move path
is a maximal child move prepended to that child path and the returned board
is that child board, and when every child evaluates to Score 0 the path is
empty. -/
theorem find_best_amended :
    (∀ (g : Puzzle) (ch : List (Move × MoveTree)),
      g.rank = Score.Win ∨ ch = [] → (MoveTree.mk g ch).find_best = (g, g.rank, []))
    ∧ (∀ (g : Puzzle) (ch : List (Move × MoveTree)), g.rank ≠ Score.Win → ch ≠ [] →
      ((MoveTree.mk g ch).find_best.2.1 ∈ ch.map (fun c => c.2.find_best.2.1)
      ∧ (∀ s ∈ ch.map (fun c => c.2.find_best.2.1),
          scoreLe s (MoveTree.mk g ch).find_best.2.1 = true)
      ∧ ((MoveTree.mk g ch).find_best.2.1 = Score.Score 0 →
          (MoveTree.mk g ch).find_best.2.2 = [])
      ∧ ((MoveTree.mk g ch).find_best.2.1 ≠ Score.Score 0 →
          ∃ c ∈ ch, c.2.find_best.2.1 = (MoveTree.mk g ch).find_best.2.1
            ∧ (MoveTree.mk g ch).find_best.2.2 = c.1 :: c.2.find_best.2.2
            ∧ (MoveTree.mk g ch).find_best.1 = c.2.find_best.1))) := by
  refine ⟨find_best_leaf, ?_⟩
  intro g ch h1 h2
  rw [find_best_node g ch h1 h2]
  have hacc : (g, Score.Score 0, ([] : List Move)).2.1 ≠ Score.Win := by simp
  have hcases := find_bestGo_cases (ch.map (fun c => (c.1, c.2.find_best)))
    (g, Score.Score 0, []) hacc
  have hub := find_bestGo_ub (ch.map (fun c => (c.1, c.2.find_best)))
    (g, Score.Score 0, []) hacc
  refine ⟨?_, ?_, ?_, ?_⟩
  · rcases hcases with hres | ⟨x, hx, hform, hgt⟩
    · rw [hres]
      obtain ⟨c0, hc0⟩ := List.exists_mem_of_ne_nil ch h2
      have hmem : (c0.1, c0.2.find_best) ∈ ch.map (fun c => (c.1, c.2.find_best)) :=
        List.mem_map.mpr ⟨c0, hc0, rfl⟩
      have hle := hub.2 (c0.1, c0.2.find_best) hmem
      rw [hres] at hle
      have hz := scoreLe_zero hle
      exact List.mem_map.mpr ⟨c0, hc0, hz⟩
    · rw [hform]
      obtain ⟨c0, hc0, hxc⟩ := List.mem_map.mp hx
      rw [← hxc]
      exact List.mem_map.mpr ⟨c0, hc0, rfl⟩
  · intro s hs
    obtain ⟨c0, hc0, hsc⟩ := List.mem_map.mp hs
    have hmem : (c0.1, c0.2.find_best) ∈ ch.map (fun c => (c.1, c.2.find_best)) :=
      List.mem_map.mpr ⟨c0, hc0, rfl⟩
    have hle := hub.2 (c0.1, c0.2.find_best) hmem
    rw [← hsc]
    exact hle
  · intro hv0
    rcases hcases with hres | ⟨x, hx, hform, hgt⟩
    · rw [hres]
    · rw [hv0] at hgt
      exact absurd hgt (by simp [Score.cmp, Nat.compare_eq_gt])
  · intro hv
    rcases hcases with hres | ⟨x, hx, hform, hgt⟩
    · rw [hres] at hv
      exact absurd rfl hv
    · obtain ⟨c0, hc0, hxc⟩ := List.mem_map.mp hx
      refine ⟨c0, hc0, ?_, ?_, ?_⟩
      · rw [hform, ← hxc]
      · rw [hform, ← hxc]
      · rw [hform, ← hxc]

/-- Claim C4 witness: an inner node whose single child is a solved leaf
takes the child value Win, returns the child board and prepends the child
move. -/
theorem find_best_amended_witness :
    (MoveTree.mk stuckPuzzle
      [(Move.mk 0 1, MoveTree.mk winPuzzle [])]).find_best.2.1
      ∈ ([(Move.mk 0 1, MoveTree.mk winPuzzle [])].map (fun c => c.2.find_best.2.1)) :=
  (find_best_amended.2 stuckPuzzle [(Move.mk 0 1, MoveTree.mk winPuzzle [])]
    (by decide) (by simp)).1

/-- Each outer cycle of `solve` contributes one committed move list; at most
`n` cycles run. -/
theorem solveGo_cycles (depth : Nat) :
    ∀ (n : Nat) (p : Puzzle), ∃ L : List (List Move),
      L.length ≤ n ∧ Puzzle.solveGo depth n p = L.flatten
  | 0, _ => ⟨[], by simp, by simp [Puzzle.solveGo]⟩
  | n + 1, p => by
    by_cases hw : ((p.moves_tree depth).find_best).2.1 = Score.Win
    · refine ⟨[((p.moves_tree depth).find_best).2.2], by simp, ?_⟩
      rw [Puzzle.solveGo]
      simp only [hw, if_pos]
      simp
    · obtain ⟨L, hlen, heq⟩ := solveGo_cycles depth n ((p.moves_tree depth).find_best).1
      refine ⟨((p.moves_tree depth).find_best).2.2 :: L, by simpa using hlen, ?_⟩
      rw [Puzzle.solveGo]
      simp only [hw, if_neg]
      rw [heq]
      simp

/-- The tree built at a given depth is bounded by that depth plus one. -/
theorem moves_tree_depth_le : ∀ (d : Nat) (p : Puzzle), DepthLE (p.moves_tree d) (d + 1)
  | 0, p => by
    rw [Puzzle.moves_tree]
    exact DepthLE.mk p _ 0 (by simp [Puzzle.moves_map])
  | d + 1, p => by
    rw [Puzzle.moves_tree]
    refine DepthLE.mk p _ (d + 1) ?_
    intro c hc
    rw [Puzzle.moves_map] at hc
    simp only [List.mem_map] at hc
    obtain ⟨m, hm, hcm⟩ := hc
    rw [← hcm]
    exact moves_tree_depth_le d (p.apply_move m)

/-- Claim C9: `solve` always terminates within the iteration cap: the outer
loop contributes at most `iterations` per-cycle move lists and the result is
their concatenation (the empty list when the cap is 0, and whatever was
accumulated when the cap runs out before Win), each cycle builds a tree
bounded by the depth cap plus one, and the moves the generator feeds to
`do_move` never make it hang or panic. -/
theorem solve_bounded :
    (∀ (p : Puzzle) (depth iterations : Nat),
      ∃ L : List (List Move), L.length ≤ iterations ∧ p.solve depth iterations = L.flatten)
    ∧ (∀ (p : Puzzle) (depth : Nat), DepthLE (p.moves_tree depth) (depth + 1))
    ∧ (∀ (p : Puzzle) (m : Move), m ∈ p.moves →
        p.do_move m ≠ MoveOutcome.hung ∧ p.do_move m ≠ MoveOutcome.panicked)
    ∧ (∀ (p : Puzzle) (depth : Nat), p.solve depth 0 = []) := by
  refine ⟨fun p depth iterations => solveGo_cycles depth iterations p,
    fun p depth => moves_tree_depth_le depth p, ?_, fun p depth => rfl⟩
  intro p m hm
  obtain ⟨st', hok⟩ := mem_moves_ok p m hm
  rw [hok]
  constructor
  · intro h
    cases h
  · intro h
    cases h

/-- Claim C9 witness: the no-hang and no-panic conjunct applied to a
generated move of the scenario board. -/
theorem solve_bounded_witness :
    (Puzzle.new 4 [[1, 5, 5, 5], [2, 2], []]).do_move (Move.mk 0 2) ≠ MoveOutcome.hung
    ∧ (Puzzle.new 4 [[1, 5, 5, 5], [2, 2], []]).do_move (Move.mk 0 2)
      ≠ MoveOutcome.panicked :=
  solve_bounded.2.2.1 (Puzzle.new 4 [[1, 5, 5, 5], [2, 2], []]) (Move.mk 0 2) (by decide)
